import Mathlib

/-!
# Timeslot visualizer — shallow embedding and verification

A shallow embedding of `src/App.js` of the timeslotvisualizer repository.

Modelling conventions:
* JS timestamps (`Date` values) are modelled as milliseconds since the epoch
  (`Nat`), in a fixed-offset timezone without DST, so the date-fns helpers
  `startOfDay`, `endOfDay`, `addDays` are plain arithmetic on milliseconds.
  Absent (`null`) dates are `Option.none`.
* JS strings are modelled as `List Char`; JS numbers appearing in layout
  geometry are modelled exactly by `JSNum` (a rational together with the
  IEEE special values produced by division by zero).
* The date-fns calendar (format / parseISO) is modelled by an explicit
  proleptic Gregorian calendar over years from 1970 onwards.
-/

namespace TSV

/-! ## Time constants and day arithmetic (date-fns `startOfDay`, `endOfDay`, `addDays`) -/

def msPerDay : Nat := 86400000

/-- date-fns `startOfDay`: midnight of the calendar day containing `t`. -/
def startOfDay (t : Nat) : Nat := t / msPerDay * msPerDay

/-- date-fns `endOfDay`: 23:59:59.999 of the calendar day containing `t`. -/
def endOfDay (t : Nat) : Nat := startOfDay t + (msPerDay - 1)

/-- date-fns `addDays t n`. -/
def addDays (t : Nat) (n : Nat) : Nat := t + n * msPerDay

/-! ## Gregorian calendar (model of the JS `Date` calendar used by date-fns) -/

def isLeapYear (y : Nat) : Bool := (y % 4 == 0 && y % 100 != 0) || y % 400 == 0

def daysInYear (y : Nat) : Nat := if isLeapYear y then 366 else 365

def monthLengths (y : Nat) : List Nat :=
  [31, if isLeapYear y then 29 else 28, 31, 30, 31, 30, 31, 31, 30, 31, 30, 31]

/-- Lengths of the `k` calendar years starting at 1970. -/
def yearLengths (k : Nat) : List Nat := (List.range k).map (fun t => daysInYear (1970 + t))

/-- Greedy subtraction along a list: returns the index of the block containing
`n` and the offset of `n` inside that block. -/
def walk : List Nat → Nat → Nat × Nat
  | [], n => (0, n)
  | c :: rest, n =>
    if n < c then (0, n)
    else
      let p := walk rest (n - c)
      (p.1 + 1, p.2)

/-- Day number (since 1970-01-01) to `(year, month, day)`, months and days 1-based. -/
def civilFromDays (n : Nat) : Nat × Nat × Nat :=
  let p := walk (yearLengths (n / 365 + 1)) n
  let y := 1970 + p.1
  let q := walk (monthLengths y) p.2
  (y, q.1 + 1, q.2 + 1)

/-- Converts `(year, month, day)` (1-based, year ≥ 1970) to the day number since 1970-01-01. -/
def daysFromCivil (y m d : Nat) : Nat :=
  (yearLengths (y - 1970)).sum + ((monthLengths y).take (m - 1)).sum + (d - 1)

def daysInMonth (y m : Nat) : Nat := (monthLengths y).getD (m - 1) 0

/-! ## Formatting (date-fns `format` with the patterns used by the app) -/

def digitChar (n : Nat) : Char := Char.ofNat (48 + n)

def pad2 (n : Nat) : List Char := [digitChar (n / 10 % 10), digitChar (n % 10)]

def pad4 (n : Nat) : List Char :=
  [digitChar (n / 1000 % 10), digitChar (n / 100 % 10), digitChar (n / 10 % 10), digitChar (n % 10)]

/-- date-fns `format(t, 'yyyy-MM-dd')`. -/
def fmtDate (t : Nat) : List Char :=
  let c := civilFromDays (t / msPerDay)
  pad4 c.1 ++ '-' :: pad2 c.2.1 ++ '-' :: pad2 c.2.2

/-- date-fns `format(t, 'HH:mm')`. -/
def fmtHM (t : Nat) : List Char :=
  pad2 (t % msPerDay / 3600000) ++ ':' :: pad2 (t % 3600000 / 60000)

/-- date-fns `format(t, 'yyyy-MM-dd HH:mm:ss')`, the export timestamp format. -/
def fmtDateTime (t : Nat) : List Char :=
  fmtDate t ++ ' ' :: fmtHM t ++ ':' :: pad2 (t % 60000 / 1000)

/-- 9999-12-31 23:59:59.999, the last millisecond the 4-digit-year model covers. -/
def maxMs : Nat := 253402300799999

/-! ## Parsing (model of date-fns `parseISO`)

`parseISO` is modelled on the `yyyy-MM-dd( |T)HH:mm:ss` strings this
application produces (plus date-only strings of that date shape); the
library's other ISO-8601 variants are never produced by the app and parse
to `none` here, as do pre-1970 dates (out of the nonnegative-epoch model).
In JS an unsuccessful `parseISO` does not return `null` but the Invalid
Date; this `Option`-valued form serves only the export/import round trip,
whose hypotheses force every parse to succeed, while the store/bounds state
machine below carries the Invalid Date explicitly (`JSDate`). -/

def digitVal? (c : Char) : Option Nat :=
  if 48 ≤ c.toNat ∧ c.toNat ≤ 57 then some (c.toNat - 48) else none

def isDelim (c : Char) : Bool := c == 'T' || c == ' '

/-- Split at the date/time delimiter; two delimiters make the string invalid
(date-fns `splitDateString`). -/
def splitDT : List Char → Option (List Char × Option (List Char))
  | [] => some ([], none)
  | c :: rest =>
    if isDelim c then
      if rest.any isDelim then none else some ([], some rest)
    else
      match splitDT rest with
      | none => none
      | some (d, t) => some (c :: d, t)

def parseDatePart : List Char → Option (Nat × Nat × Nat)
  | [y1, y2, y3, y4, '-', m1, m2, '-', d1, d2] => do
    let a ← digitVal? y1
    let b ← digitVal? y2
    let c ← digitVal? y3
    let d ← digitVal? y4
    let e ← digitVal? m1
    let f ← digitVal? m2
    let g ← digitVal? d1
    let h2 ← digitVal? d2
    let y := 1000 * a + 100 * b + 10 * c + d
    let m := 10 * e + f
    let dd := 10 * g + h2
    if 1970 ≤ y ∧ 1 ≤ m ∧ m ≤ 12 ∧ 1 ≤ dd ∧ dd ≤ daysInMonth y m then
      some (y, m, dd)
    else none
  | _ => none

def parseTimePart : List Char → Option Nat
  | [h1, h2, ':', m1, m2, ':', s1, s2] => do
    let a ← digitVal? h1
    let b ← digitVal? h2
    let c ← digitVal? m1
    let d ← digitVal? m2
    let e ← digitVal? s1
    let f ← digitVal? s2
    let hh := 10 * a + b
    let mm := 10 * c + d
    let ss := 10 * e + f
    if hh ≤ 23 ∧ mm ≤ 59 ∧ ss ≤ 59 then
      some (hh * 3600000 + mm * 60000 + ss * 1000)
    else none
  | _ => none

def parseISO (s : List Char) : Option Nat :=
  match splitDT s with
  | none => none
  | some (d, none) =>
    match parseDatePart d with
    | some ymd => some (daysFromCivil ymd.1 ymd.2.1 ymd.2.2 * msPerDay)
    | none => none
  | some (d, some tp) =>
    match parseDatePart d, parseTimePart tp with
    | some ymd, some tms => some (daysFromCivil ymd.1 ymd.2.1 ymd.2.2 * msPerDay + tms)
    | _, _ => none

/-! ## JS string utilities (`String.prototype.split`, `trim`) -/

/-- Attach a character to the front of the first chunk. -/
def consHead (c : Char) : List (List Char) → List (List Char)
  | [] => [[c]]
  | s :: ss => (c :: s) :: ss

/-- JS `split(/\r\n|\n/)` (used by `handleImport`): `\r\n` is matched
before `\n`; a lone `\r` is not a separator. -/
def splitNL : List Char → List (List Char)
  | [] => [[]]
  | '\r' :: '\n' :: rest => [] :: splitNL rest
  | '\n' :: rest => [] :: splitNL rest
  | c :: rest => consHead c (splitNL rest)

/-- JS `split(sep)` for a single-character separator. -/
def splitOnChar (sep : Char) : List Char → List (List Char)
  | [] => [[]]
  | c :: rest =>
    if c = sep then [] :: splitOnChar sep rest else consHead c (splitOnChar sep rest)

/-- JS `join('\r\n')` (used by `handleExport`). -/
def joinCRLF : List (List Char) → List Char
  | [] => []
  | [l] => l
  | l :: ls => l ++ '\r' :: '\n' :: joinCRLF ls

def isSpaceChar (c : Char) : Bool :=
  c == ' ' || c == '\t' || c == '\n' || c == '\r' || c == '\x0b' || c == '\x0c'

/-- JS `String.prototype.trim`. -/
def jsTrim (s : List Char) : List Char :=
  ((s.dropWhile isSpaceChar).reverse.dropWhile isSpaceChar).reverse

/-! ## The row store (`App.js`) -/

structure RowErrors where
  ip : List Char
  date : List Char
deriving DecidableEq, Inhabited

/-- One entry of the `rows` state. The JS field `end` is called `stop` here
(`end` is a Lean keyword). -/
structure Row where
  name : List Char
  ip : List Char
  start : Option Nat
  stop : Option Nat
  errors : RowErrors
  selected : Bool
deriving DecidableEq, Inhabited

/-- The blank record appended by `handleAddRow`. -/
def blankRow : Row :=
  { name := [], ip := [], start := none, stop := none, errors := ⟨[], []⟩, selected := false }

def handleAddRow (rows : List Row) : List Row := rows ++ [blankRow]

def isDigitCh (c : Char) : Bool := 48 ≤ c.toNat && c.toNat ≤ 57

/-- Decimal value of a digit string (string-to-number on digit groups). -/
def digitsVal (g : List Char) : Nat := g.foldl (fun a c => a * 10 + (c.toNat - 48)) 0

/-- Modelled from the spec: `validateIP` is imported from `src/utils.js`, which
is not among the provided sources. Spec §4.1: "Address validity predicate:
four dot-separated groups, each a decimal integer 0–255 with no extraneous
characters; any other shape is invalid." -/
def validateIP (s : List Char) : Bool :=
  let gs := splitOnChar '.' s
  gs.length == 4 &&
    gs.all (fun g => !g.isEmpty && g.all isDigitCh && decide (digitsVal g ≤ 255))

/-- A single-field update value for `handleChange` (`field`/`value` pair);
`stop` is the JS `end` field. -/
inductive FieldVal where
  | name (v : List Char)
  | ip (v : List Char)
  | start (v : Option Nat)
  | stop (v : Option Nat)
  | selected (v : Bool)
deriving DecidableEq

/-- The assignment `newRows[index][field] = value`. -/
def setField (r : Row) : FieldVal → Row
  | .name v => { r with name := v }
  | .ip v => { r with ip := v }
  | .start v => { r with start := v }
  | .stop v => { r with stop := v }
  | .selected v => { r with selected := v }

def isIpEdit : FieldVal → Bool
  | .ip _ => true
  | _ => false

/-- Model of `handleChange` (App.js lines 50–61). JS throws on an out-of-range index
(the UI only passes in-range ones); the model returns the rows unchanged
there. The `if (field === 'ip' && !validateIP(value))` / `else` pair sets
`errors.ip` on every edit: to the error message for an invalid `ip` value and
to the empty string otherwise, including edits of unrelated fields. -/
def handleChange (rows : List Row) (index : Nat) (fv : FieldVal) : List Row :=
  match rows.get? index with
  | none => rows
  | some r =>
    let r1 := setField r fv
    let msg : List Char :=
      match fv with
      | .ip v => if validateIP v then [] else "Invalid IP address".toList
      | _ => []
    rows.set index { r1 with errors := { r1.errors with ip := msg } }

/-- Model of `handleDeleteRow` (App.js lines 63–66): `rows.filter((_, i) => i !== index)`. -/
def handleDeleteRow {α : Type} (rows : List α) (index : Int) : List α :=
  (rows.enum.filter (fun p => ((p.1 : Int) != index))).map Prod.snd

/-- Model of `handleDeleteSelected` (App.js lines 68–71). -/
def handleDeleteSelected (rows : List Row) : List Row := rows.filter (fun r => !r.selected)

/-- Model of `handleCopySelected` (App.js lines 73–77). -/
def handleCopySelected (rows : List Row) : List Row :=
  rows ++ (rows.filter (fun r => r.selected)).map (fun r => { r with selected := false })

/-- Model of `handleSelectAll` (App.js lines 134–138), restricted to the rows update. -/
def handleSelectAll (rows : List Row) (flag : Bool) : List Row :=
  rows.map (fun r => { r with selected := flag })

/-- Model of `handleDragEnd` (App.js lines 140–148): splice out `src`, re-insert at
`dst`. The drag library only reports indices of existing rows; other indices
leave the rows unchanged in the model. -/
def handleDragEnd {α : Type} (rows : List α) (src dst : Nat) : List α :=
  match rows.get? src with
  | none => rows
  | some x => (rows.eraseIdx src).insertIdx dst x

/-! ## Export and import (`handleExport`, `handleImport`) -/

/-- The expression `row.start ? format(row.start, 'yyyy-MM-dd HH:mm:ss') : ''`. -/
def fmtOpt : Option Nat → List Char
  | none => []
  | some t => fmtDateTime t

def exportLine (r : Row) : List Char :=
  r.name ++ ('\t' :: (r.ip ++ ('\t' :: (fmtOpt r.start ++ ('\t' :: fmtOpt r.stop)))))

def exportToText (rows : List Row) : List Char := joinCRLF (rows.map exportLine)

/-- The expression `start ? parseISO(start) : null`: an absent or empty field
is falsy and yields `null`. In JS an unparsable nonempty field yields not
`null` but a truthy Invalid Date object; this `Option Nat` form conflates the
two, which is sound only where a hypothesis rules the unparsable case out —
it is used solely under the round-trip hypotheses of the export/import
development. The store/bounds state machine (`JRow`, `Reachable`) keeps the
Invalid Date as an explicit value instead. -/
def parseField (s : List Char) : Option Nat := if s.isEmpty then none else parseISO s

def lineToRow (line : List Char) : Row :=
  let fs := splitOnChar '\t' line
  { name := fs.getD 0 [], ip := fs.getD 1 [],
    start := parseField (fs.getD 2 []), stop := parseField (fs.getD 3 []),
    errors := ⟨[], []⟩, selected := false }

def importFromText (text : List Char) : List Row :=
  ((splitNL text).filter (fun l => !(jsTrim l).isEmpty)).map lineToRow

def cleanStrB (l : List Char) : Bool := l.all (fun c => c != '\t' && c != '\n' && c != '\r')

/-! ### The export/import round trip -/

def tsOkB : Option Nat → Bool
  | none => false
  | some a => decide (a % 1000 = 0) && decide (a ≤ maxMs)

/-- Both timestamps set, whole seconds, within the 4-digit-year range, and
name/address free of tab, CR and LF. -/
def goodRowB (r : Row) : Bool :=
  cleanStrB r.name && cleanStrB r.ip && tsOkB r.start && tsOkB r.stop

/-! ## JS number model for the layout geometry -/

/-- A JS number as produced by the layout arithmetic: an exact rational, or
one of the special values produced by dividing by zero. -/
inductive JSNum where
  | fin (q : ℚ)
  | posInf
  | negInf
  | nan
deriving DecidableEq, Inhabited

def JSNum.isFinite : JSNum → Bool
  | .fin _ => true
  | _ => false

/-- JS division `a / b` (IEEE division-by-zero semantics on exact values). -/
def jsDiv (a b : ℚ) : JSNum :=
  if b = 0 then (if a = 0 then .nan else if 0 < a then .posInf else .negInf)
  else .fin (a / b)

/-- Multiplication by the positive literal 100 (`x * 100`). -/
def jsMul100 : JSNum → JSNum
  | .fin q => .fin (q * 100)
  | .posInf => .posInf
  | .negInf => .negInf
  | .nan => .nan

/-- Model of `calculateWidth` (App.js lines 118–123). -/
def calculateWidth (earliest latest start stop : Option Nat) : JSNum :=
  match earliest, latest, start, stop with
  | some el, some la, some s, some e =>
    jsMul100 (jsDiv ((e : ℚ) - s) ((la : ℚ) - el))
  | _, _, _, _ => .fin 0

/-- Result of `calculateLeftPosition`: the bare numeric offset, or the
`calc(p% + offset px)` string. -/
inductive LeftPos where
  | px (n : ℚ)
  | calc (pct : JSNum) (off : ℚ)
deriving DecidableEq, Inhabited

/-- The `offset` constant (App.js line 25). -/
def offset : ℚ := 5

/-- Model of `calculateLeftPosition` (App.js lines 125–132). The guard checks only
`earliest` and `start`; a `null` `latest` coerces to 0 in `latest - earliest`. -/
def calculateLeftPosition (earliest latest start : Option Nat) : LeftPos :=
  match earliest, start with
  | some el, some s =>
    let total : ℚ := (match latest with | none => 0 | some la => (la : ℚ)) - el
    .calc (jsMul100 (jsDiv ((s : ℚ) - el) total)) offset
  | _, _ => .px offset

/-! ## Timeline segments (`renderBarSegments`, App.js lines 150–229) -/

/-- The `while (currentEnd < end)` loop; `fuel` bounds the number of
iterations (one per calendar day). -/
def segLoop (e : Nat) : Nat → Nat → List (Nat × Nat)
  | 0, cs => [(cs, e)]
  | fuel + 1, cs =>
    if endOfDay cs < e then
      (cs, endOfDay cs) :: segLoop e fuel (startOfDay (addDays (endOfDay cs) 1))
    else [(cs, e)]

/-- The day-aligned segment list built by the loop (App.js lines 167–176). -/
def daySegments (s e : Nat) : List (Nat × Nat) :=
  segLoop e (e / msPerDay - s / msPerDay) s

def barColors : List String := ["#03AED2", "#FDDE55", "#1E88E5", "#FBC02D"]

/-- The lookup `barColors[i]` for a JS remainder `i`: indexing at a negative remainder
yields `undefined` (JS `-0` is `0`, which `Int` has no counterpart of to
worry about). -/
def colorAt (i : Int) : Option String :=
  if 0 ≤ i then barColors.get? i.toNat else none

/-- The index `Math.floor((segment.start - startOfDay(earliest)) / 86400000)` followed by
`% barColors.length` (App.js lines 179–180); with `earliest` unset the index
is NaN and the color `undefined`. -/
def segColor (earliest : Option Nat) (segStart : Nat) : Option String :=
  match earliest with
  | none => none
  | some el =>
    colorAt (Int.tmod (Int.fdiv ((segStart : Int) - (startOfDay el : Int)) (msPerDay : Int)) 4)

/-- One rendered segment box. -/
structure RSeg where
  segStart : Nat
  segEnd : Nat
  color : Option String
  left : LeftPos
  width : JSNum
  startLabel : Option (List Char × List Char)
  endLabel : Option (List Char × List Char)
deriving DecidableEq, Inhabited

/-- Rendering of one segment (the body of `segments.map`, App.js lines
178–228): geometry, palette color, and the `yyyy-MM-dd` / `HH:mm` labels
carried by the first and last segment. -/
def renderSeg (s e : Nat) (earliest latest : Option Nat) (p : Nat × Nat) : RSeg :=
  { segStart := p.1, segEnd := p.2,
    color := segColor earliest p.1,
    left := calculateLeftPosition earliest latest (some p.1),
    width := calculateWidth earliest latest (some p.1) (some p.2),
    startLabel := if p.1 = s then some (fmtDate p.1, fmtHM p.1) else none,
    endLabel := if p.2 = e then some (fmtDate p.2, fmtHM p.2) else none }

def renderedSegs (s e : Nat) (earliest latest : Option Nat) : List RSeg :=
  (daySegments s e).map (renderSeg s e earliest latest)

/-- The rendering of one record's time-slot cell. -/
inductive RenderResult where
  | nullR
  | invalidMarker
  | segs (l : List RSeg)
deriving DecidableEq

/-- Model of `renderBarSegments(start, end)` (App.js lines 150–229), with the
component-state `earliest`/`latest` passed explicitly. An unset date renders
nothing; `start >= end` renders the single full-width red marker
(`left: '0%', width: '100%'`, red background). -/
def renderBarSegments (start stop earliest latest : Option Nat) : RenderResult :=
  match start, stop with
  | some s, some e =>
    if e ≤ s then .invalidMarker
    else .segs (renderedSegs s e earliest latest)
  | _, _ => .nullR

/-! ## Application state and the bounds-derivation effect -/

/-- A JS `Date` time value: a valid instant (ms since the epoch) or the
Invalid Date, whose time value is NaN — what date-fns `parseISO` returns for
an unparsable string and what `new Date(NaN)` produces. -/
inductive JSDate where
  | valid (ms : Nat)
  | invalid
deriving DecidableEq

/-- The time value of a JS date, when it is a valid instant. -/
def JSDate.ms? : JSDate → Option Nat
  | .valid t => some t
  | .invalid => none

/-- The record shape with the timestamps carried as JS `Date` values
(`JSDate`), used by the store/bounds state machine, where the import path can
introduce the Invalid Date. `Row` above specializes the timestamps to valid
instants for the layout and round-trip developments. -/
structure JRow where
  name : List Char
  ip : List Char
  start : Option JSDate
  stop : Option JSDate
  errors : RowErrors
  selected : Bool
deriving DecidableEq

/-- The blank record appended by `handleAddRow`, over `JRow`. -/
def blankJRow : JRow :=
  { name := [], ip := [], start := none, stop := none, errors := ⟨[], []⟩, selected := false }

def handleAddRowJ (rows : List JRow) : List JRow := rows ++ [blankJRow]

/-- A single-field update value for `handleChange` over `JRow`. -/
inductive JFieldVal where
  | name (v : List Char)
  | ip (v : List Char)
  | start (v : Option JSDate)
  | stop (v : Option JSDate)
  | selected (v : Bool)
deriving DecidableEq

/-- The assignment `newRows[index][field] = value` over `JRow`. -/
def setFieldJ (r : JRow) : JFieldVal → JRow
  | .name v => { r with name := v }
  | .ip v => { r with ip := v }
  | .start v => { r with start := v }
  | .stop v => { r with stop := v }
  | .selected v => { r with selected := v }

/-- Model of `handleChange` (App.js lines 50–61) over `JRow`, identical to
`handleChange` above with the timestamp fields carrying JS `Date` values (the
handler stores whatever value the picker hands it, the Invalid Date
included). -/
def handleChangeJ (rows : List JRow) (index : Nat) (fv : JFieldVal) : List JRow :=
  match rows.get? index with
  | none => rows
  | some r =>
    let r1 := setFieldJ r fv
    let msg : List Char :=
      match fv with
      | .ip v => if validateIP v then [] else "Invalid IP address".toList
      | _ => []
    rows.set index { r1 with errors := { r1.errors with ip := msg } }

/-- Model of `handleDeleteSelected` (App.js lines 68–71) over `JRow`. -/
def handleDeleteSelectedJ (rows : List JRow) : List JRow := rows.filter (fun r => !r.selected)

/-- Model of `handleCopySelected` (App.js lines 73–77) over `JRow`. -/
def handleCopySelectedJ (rows : List JRow) : List JRow :=
  rows ++ (rows.filter (fun r => r.selected)).map (fun r => { r with selected := false })

/-- One record built by `handleImport` for an input line (App.js lines 86–94):
arbitrary `name`/`ip` text and, for each timestamp field, `null` when the
field is missing or empty (falsy), and otherwise the `parseISO` result — a
valid instant, or the Invalid Date for an unparsable nonempty field; errors
blank, unselected. Quantifying the import step over every such field tuple
covers the records produced from every possible input text. -/
def importedRow : List Char × List Char × Option JSDate × Option JSDate → JRow
  | (n, i, s, e) =>
    { name := n, ip := i, start := s, stop := e, errors := ⟨[], []⟩, selected := false }

/-- The list `rows.flatMap((row) => [row.start, row.end]).filter(Boolean)`
(App.js line 35): `null` is falsy and dropped; every `Date` object is truthy
and kept, the Invalid Date included. -/
def definedDates (rows : List JRow) : List JSDate :=
  (rows.flatMap (fun r => [r.start, r.stop])).filterMap id

/-- Lift of a binary operation on instants to JS `Date` time values: an
Invalid Date argument makes the result NaN (absorbing), as in
`Math.min`/`Math.max` over coerced date arguments. -/
def JSDate.lift (op : Nat → Nat → Nat) : JSDate → JSDate → JSDate
  | .valid a, .valid b => .valid (op a b)
  | _, _ => .invalid

def jsMin : JSDate → JSDate → JSDate := JSDate.lift min

def jsMax : JSDate → JSDate → JSDate := JSDate.lift max

/-- The value `new Date(Math.min(...dates))` over a spread date list: NaN
absorbs, and `Math.min()` of an empty spread is `Infinity`, which `new Date`
turns into the Invalid Date (the effect's guard keeps that case
unreachable). -/
def jsMinList : List JSDate → JSDate
  | [] => .invalid
  | d :: ds => ds.foldl jsMin d

/-- The value `new Date(Math.max(...dates))`; see `jsMinList`. -/
def jsMaxList : List JSDate → JSDate
  | [] => .invalid
  | d :: ds => ds.foldl jsMax d

structure AppState where
  rows : List JRow
  earliest : Option JSDate
  latest : Option JSDate
deriving DecidableEq

/-- The `useEffect` on `rows` (App.js lines 33–41): with rows present and at
least one non-null date among them, set the bounds to
`new Date(Math.min(...dates))` and `new Date(Math.max(...dates))`; otherwise
keep the previous bounds (the effect never resets them). -/
def recomputeBounds (s : AppState) : AppState :=
  if s.rows.isEmpty then s
  else if (definedDates s.rows).isEmpty then s
  else { s with earliest := some (jsMinList (definedDates s.rows)),
                latest := some (jsMaxList (definedDates s.rows)) }

def initState : AppState := { rows := [], earliest := none, latest := none }

/-- A rows update followed by the bounds effect. -/
def stepRows (f : List JRow → List JRow) (s : AppState) : AppState :=
  recomputeBounds { s with rows := f s.rows }

/-- States reachable by the row-store operations (add, edit, delete,
delete-selected, copy-selected, reorder, import), each followed by the
bounds-recomputation effect. The import step replaces the sequence with
records of the imported shape (`importedRow`) for an arbitrary list of field
tuples, covering the rows produced from every possible input text, the
Invalid Date of an unparsable nonempty timestamp field included. -/
inductive Reachable : AppState → Prop where
  | init : Reachable initState
  | add {s} : Reachable s → Reachable (stepRows handleAddRowJ s)
  | edit {s} (i : Nat) (fv : JFieldVal) : Reachable s →
      Reachable (stepRows (fun rows => handleChangeJ rows i fv) s)
  | del {s} (i : Int) : Reachable s →
      Reachable (stepRows (fun rows => handleDeleteRow rows i) s)
  | delSel {s} : Reachable s → Reachable (stepRows handleDeleteSelectedJ s)
  | copySel {s} : Reachable s → Reachable (stepRows handleCopySelectedJ s)
  | reorder {s} (src dst : Nat) : Reachable s →
      Reachable (stepRows (fun rows => handleDragEnd rows src dst) s)
  | imp {s} (data : List (List Char × List Char × Option JSDate × Option JSDate)) :
      Reachable s → Reachable (stepRows (fun _ => data.map importedRow) s)

/-! ## Theorems -/

theorem walk_spec (l : List Nat) : ∀ (n : Nat), n < l.sum →
    (walk l n).1 < l.length ∧
    (l.take (walk l n).1).sum + (walk l n).2 = n ∧
    (walk l n).2 < l.getD (walk l n).1 0 := by
  induction l with
  | nil => intro n h; simp at h
  | cons c rest ih =>
    intro n h
    simp only [walk]
    split
    · simp_all
    · have h2 : n - c < rest.sum := by simp at h; omega
      have := ih (n - c) h2
      simp only [List.length_cons, List.take_succ_cons, List.sum_cons, List.getD_cons_succ]
      omega

theorem isLeapYear_iff (y : Nat) :
    isLeapYear y = true ↔ (y % 4 = 0 ∧ y % 100 ≠ 0) ∨ y % 400 = 0 := by
  simp [isLeapYear]

theorem daysInYear_eq (y : Nat) :
    daysInYear y = if (y % 4 = 0 ∧ y % 100 ≠ 0) ∨ y % 400 = 0 then 366 else 365 := by
  rw [daysInYear]
  by_cases hc : (y % 4 = 0 ∧ y % 100 ≠ 0) ∨ y % 400 = 0
  · rw [if_pos ((isLeapYear_iff y).mpr hc), if_pos hc]
  · rw [if_neg (fun hh => hc ((isLeapYear_iff y).mp hh)), if_neg hc]

theorem yearLengths_succ (k : Nat) :
    (yearLengths (k + 1)).sum = (yearLengths k).sum + daysInYear (1970 + k) := by
  simp [yearLengths, List.range_succ]

theorem yearLengths_sum (k : Nat) :
    (yearLengths k).sum = 365 * k + (1969 + k) / 4 - (1969 + k) / 100 + (1969 + k) / 400 - 477 := by
  induction k with
  | zero => simp [yearLengths]
  | succ k ih =>
    rw [yearLengths_succ, ih, daysInYear_eq]
    have e1 : 1969 + (k + 1) = 1969 + k + 1 := by omega
    have e2 : 1970 + k = 1969 + k + 1 := by omega
    rw [e1, e2]
    have b4 : (1969 + k + 1) % 4 = 0 ∧ (1969 + k + 1) / 4 = (1969 + k) / 4 + 1 ∨
        (1969 + k + 1) % 4 ≠ 0 ∧ (1969 + k + 1) / 4 = (1969 + k) / 4 := by
      by_cases h : (1969 + k + 1) % 4 = 0
      · exact Or.inl ⟨h, by omega⟩
      · exact Or.inr ⟨h, by omega⟩
    have b100 : (1969 + k + 1) % 100 = 0 ∧ (1969 + k + 1) / 100 = (1969 + k) / 100 + 1 ∨
        (1969 + k + 1) % 100 ≠ 0 ∧ (1969 + k + 1) / 100 = (1969 + k) / 100 := by
      by_cases h : (1969 + k + 1) % 100 = 0
      · exact Or.inl ⟨h, by omega⟩
      · exact Or.inr ⟨h, by omega⟩
    have b400 : (1969 + k + 1) % 400 = 0 ∧ (1969 + k + 1) / 400 = (1969 + k) / 400 + 1 ∨
        (1969 + k + 1) % 400 ≠ 0 ∧ (1969 + k + 1) / 400 = (1969 + k) / 400 := by
      by_cases h : (1969 + k + 1) % 400 = 0
      · exact Or.inl ⟨h, by omega⟩
      · exact Or.inr ⟨h, by omega⟩
    split_ifs with hc <;> omega

theorem yearLengths_sum_lb (k : Nat) : 365 * k ≤ (yearLengths k).sum := by
  induction k with
  | zero => simp
  | succ k ih =>
    rw [yearLengths_succ, daysInYear_eq]
    split_ifs <;> omega

theorem monthLengths_sum (y : Nat) : (monthLengths y).sum = daysInYear y := by
  cases h : isLeapYear y <;> simp [monthLengths, daysInYear, h]

/-- The civil conversion inverts the day count, and produces in-range fields,
for all days up to 9999-12-31. -/
theorem civil_inverse (n : Nat) (hn : n ≤ 2932896) :
    daysFromCivil (civilFromDays n).1 (civilFromDays n).2.1 (civilFromDays n).2.2 = n ∧
    1970 ≤ (civilFromDays n).1 ∧ (civilFromDays n).1 ≤ 9999 ∧
    1 ≤ (civilFromDays n).2.1 ∧ (civilFromDays n).2.1 ≤ 12 ∧
    1 ≤ (civilFromDays n).2.2 ∧
    (civilFromDays n).2.2 ≤ daysInMonth (civilFromDays n).1 (civilFromDays n).2.1 := by
  have hsum : n < (yearLengths (n / 365 + 1)).sum := by
    have := yearLengths_sum_lb (n / 365 + 1)
    omega
  obtain ⟨hi, htake, hrem⟩ := walk_spec (yearLengths (n / 365 + 1)) n hsum
  set k := n / 365 + 1 with hk
  set i := (walk (yearLengths k) n).1 with hidef
  set doy := (walk (yearLengths k) n).2 with hdoydef
  have hlen : (yearLengths k).length = k := by simp [yearLengths]
  have hik : i < k := by rwa [hlen] at hi
  have htake' : (yearLengths k).take i = yearLengths i := by
    simp only [yearLengths, ← List.map_take, List.take_range]
    congr 2
    omega
  have hgetd : (yearLengths k).getD i 0 = daysInYear (1970 + i) := by
    simp [yearLengths, List.getD_eq_getElem?_getD, List.getElem?_map, List.getElem?_range hik]
  rw [htake'] at htake
  rw [hgetd] at hrem
  have hmsum : doy < (monthLengths (1970 + i)).sum := by
    rw [monthLengths_sum]; exact hrem
  obtain ⟨hj, hjtake, hjrem⟩ := walk_spec (monthLengths (1970 + i)) doy hmsum
  set j := (walk (monthLengths (1970 + i)) doy).1 with hjdef
  set dof := (walk (monthLengths (1970 + i)) doy).2 with hdofdef
  have hmlen : (monthLengths (1970 + i)).length = 12 := by
    cases h : isLeapYear (1970 + i) <;> simp [monthLengths, h]
  have hj12 : j < 12 := by rwa [hmlen] at hj
  have hcivil : civilFromDays n = (1970 + i, j + 1, dof + 1) := rfl
  have hy9999 : i ≤ 8029 := by
    have hle : (yearLengths i).sum ≤ n := by omega
    rw [yearLengths_sum] at hle
    omega
  have hback : daysFromCivil (1970 + i) (j + 1) (dof + 1) = n := by
    simp only [daysFromCivil, Nat.add_sub_cancel, Nat.add_sub_cancel_left]
    omega
  have hdim : dof + 1 ≤ daysInMonth (1970 + i) (j + 1) := by
    simp only [daysInMonth, Nat.add_sub_cancel]
    omega
  rw [hcivil]
  dsimp only
  exact ⟨hback, by omega, by omega, by omega, by omega, by omega, hdim⟩

/-! ### Round trip of format and parse -/

theorem digitChar_toNat (n : Nat) (h : n ≤ 9) : (digitChar n).toNat = 48 + n := by
  interval_cases n <;> rfl

theorem digitVal?_digitChar (x : Nat) : digitVal? (digitChar (x % 10)) = some (x % 10) := by
  have h : x % 10 ≤ 9 := by omega
  rw [digitVal?, digitChar_toNat _ h, if_pos (by omega)]
  congr 1
  omega

theorem isDelim_digitChar (x : Nat) : isDelim (digitChar (x % 10)) = false := by
  have h : x % 10 ≤ 9 := by omega
  interval_cases hx : x % 10 <;> rfl

theorem splitDT_sep (d t : List Char) (hd : ∀ c ∈ d, isDelim c = false)
    (ht : ∀ c ∈ t, isDelim c = false) : splitDT (d ++ ' ' :: t) = some (d, some t) := by
  induction d with
  | nil =>
    have hany : t.any isDelim = false := by
      rw [List.any_eq_false]
      intro c hc
      simp [ht c hc]
    simp [splitDT, isDelim, hany]
  | cons c d ih =>
    have hc : isDelim c = false := hd c (by simp)
    have := ih (fun x hx => hd x (by simp [hx]))
    simp only [List.cons_append, splitDT, hc, Bool.false_eq_true, if_false, List.append_eq, this]

theorem daysInMonth_le (y m : Nat) : daysInMonth y m ≤ 31 := by
  rw [daysInMonth, List.getD_eq_getElem?_getD]
  rcases h : (monthLengths y)[m - 1]? with _ | x
  · simp
  · have hx : x ∈ monthLengths y := List.getElem?_mem h
    have : x ≤ 31 := by
      cases hl : isLeapYear y <;> simp [monthLengths, hl] at hx <;> omega
    simpa using this

theorem parseDatePart_pads (y m d : Nat) (hy : 1970 ≤ y) (hy2 : y ≤ 9999)
    (hm1 : 1 ≤ m) (hm2 : m ≤ 12) (hd1 : 1 ≤ d) (hd2 : d ≤ daysInMonth y m) :
    parseDatePart (pad4 y ++ '-' :: pad2 m ++ '-' :: pad2 d) = some (y, m, d) := by
  simp only [pad4, pad2, List.cons_append, List.nil_append, parseDatePart,
    digitVal?_digitChar, Option.bind_eq_bind, Option.some_bind]
  have hd31 : d ≤ 31 := le_trans hd2 (daysInMonth_le y m)
  have k1 : y / 10 / 10 = y / 100 := by rw [Nat.div_div_eq_div_mul]
  have k2 : y / 100 / 10 = y / 1000 := by rw [Nat.div_div_eq_div_mul]
  have hYv : 1000 * (y / 1000 % 10) + 100 * (y / 100 % 10) + 10 * (y / 10 % 10) + y % 10 = y := by
    omega
  have hMv : 10 * (m / 10 % 10) + m % 10 = m := by omega
  have hDv : 10 * (d / 10 % 10) + d % 10 = d := by omega
  rw [hYv, hMv, hDv, if_pos ⟨hy, hm1, hm2, hd1, hd2⟩]

theorem parseTimePart_pads (a b c : Nat) (ha : a ≤ 23) (hb : b ≤ 59) (hc : c ≤ 59) :
    parseTimePart (pad2 a ++ ':' :: pad2 b ++ ':' :: pad2 c) =
      some (a * 3600000 + b * 60000 + c * 1000) := by
  simp only [pad2, List.cons_append, List.nil_append, parseTimePart,
    digitVal?_digitChar, Option.bind_eq_bind, Option.some_bind]
  have hAv : 10 * (a / 10 % 10) + a % 10 = a := by omega
  have hBv : 10 * (b / 10 % 10) + b % 10 = b := by omega
  have hCv : 10 * (c / 10 % 10) + c % 10 = c := by omega
  rw [hAv, hBv, hCv, if_pos ⟨ha, hb, hc⟩]

theorem fmtDate_nondelim (t : Nat) : ∀ ch ∈ fmtDate t, isDelim ch = false := by
  intro ch hch
  rw [fmtDate] at hch
  simp only [pad4, pad2, List.cons_append, List.nil_append, List.mem_cons,
    List.not_mem_nil, or_false] at hch
  rcases hch with h | h | h | h | h | h | h | h | h | h <;> subst h <;>
    first
    | exact isDelim_digitChar _
    | rfl

theorem timePartChars_nondelim (t : Nat) :
    ∀ ch ∈ fmtHM t ++ ':' :: pad2 (t % 60000 / 1000), isDelim ch = false := by
  intro ch hch
  rw [fmtHM] at hch
  simp only [pad2, List.cons_append, List.nil_append, List.mem_cons,
    List.not_mem_nil, or_false] at hch
  rcases hch with h | h | h | h | h | h | h | h <;> subst h <;>
    first
    | exact isDelim_digitChar _
    | rfl

theorem parseISO_eq (s d tp : List Char) (ymd : Nat × Nat × Nat) (tms : Nat)
    (h1 : splitDT s = some (d, some tp)) (h2 : parseDatePart d = some ymd)
    (h3 : parseTimePart tp = some tms) :
    parseISO s = some (daysFromCivil ymd.1 ymd.2.1 ymd.2.2 * msPerDay + tms) := by
  unfold parseISO
  rw [h1]
  dsimp only
  rw [h2, h3]

/-- Parsing recovers from the exported `yyyy-MM-dd HH:mm:ss` string the
original timestamp truncated to whole seconds. -/
theorem parseISO_fmtDateTime (t : Nat) (ht : t ≤ maxMs) :
    parseISO (fmtDateTime t) = some (t / 1000 * 1000) := by
  have hdays : t / msPerDay ≤ 2932896 := by
    rw [maxMs] at ht
    rw [msPerDay]
    omega
  obtain ⟨hinv, hy1, hy2, hm1, hm2, hd1, hd2⟩ := civil_inverse (t / msPerDay) hdays
  have hsplit : splitDT (fmtDateTime t) =
      some (fmtDate t, some (fmtHM t ++ ':' :: pad2 (t % 60000 / 1000))) := by
    rw [fmtDateTime]
    exact splitDT_sep _ _ (fmtDate_nondelim t) (timePartChars_nondelim t)
  have hdate : parseDatePart (fmtDate t) = some (civilFromDays (t / msPerDay)) := by
    rw [fmtDate]
    rw [parseDatePart_pads _ _ _ hy1 hy2 hm1 hm2 hd1 hd2]
  have htime : parseTimePart (fmtHM t ++ ':' :: pad2 (t % 60000 / 1000)) =
      some (t % msPerDay / 3600000 * 3600000 + t % 3600000 / 60000 * 60000 +
        t % 60000 / 1000 * 1000) := by
    rw [fmtHM]
    rw [show (pad2 (t % msPerDay / 3600000) ++ ':' :: pad2 (t % 3600000 / 60000)) ++
        ':' :: pad2 (t % 60000 / 1000) =
        pad2 (t % msPerDay / 3600000) ++ ':' :: pad2 (t % 3600000 / 60000) ++
        ':' :: pad2 (t % 60000 / 1000) from by simp [List.append_assoc]]
    exact parseTimePart_pads _ _ _ (by rw [msPerDay]; omega) (by omega) (by omega)
  have hp := parseISO_eq _ _ _ _ _ hsplit hdate htime
  rw [hinv] at hp
  refine hp.trans (congrArg some ?_)
  rw [msPerDay]
  omega

/-! ### Split and join lemmas -/

theorem splitNL_crlf (rest : List Char) : splitNL ('\r' :: '\n' :: rest) = [] :: splitNL rest := by
  simp [splitNL]

theorem splitNL_char (c : Char) (rest : List Char) (h1 : c ≠ '\n') (h2 : c ≠ '\r') :
    splitNL (c :: rest) = consHead c (splitNL rest) := by
  rcases rest with _ | ⟨c2, rest⟩
  · simp [splitNL, h1, h2]
  · by_cases hc2 : c2 = '\n'
    · subst hc2; simp [splitNL, h1, h2]
    · simp [splitNL, h1, h2, hc2]

theorem splitNL_clean (l : List Char) (h : ∀ c ∈ l, c ≠ '\n' ∧ c ≠ '\r') :
    splitNL l = [l] := by
  induction l with
  | nil => rfl
  | cons c l ih =>
    have hc := h c (by simp)
    rw [splitNL_char c l hc.1 hc.2, ih (fun x hx => h x (by simp [hx]))]
    rfl

theorem splitNL_append (l rest : List Char) (h : ∀ c ∈ l, c ≠ '\n' ∧ c ≠ '\r') :
    splitNL (l ++ '\r' :: '\n' :: rest) = l :: splitNL rest := by
  induction l with
  | nil => simpa using splitNL_crlf rest
  | cons c l ih =>
    have hc := h c (by simp)
    rw [List.cons_append, splitNL_char c _ hc.1 hc.2, ih (fun x hx => h x (by simp [hx]))]
    rfl

theorem splitNL_join (lines : List (List Char))
    (h : ∀ l ∈ lines, ∀ c ∈ l, c ≠ '\n' ∧ c ≠ '\r') (hne : lines ≠ []) :
    splitNL (joinCRLF lines) = lines := by
  induction lines with
  | nil => exact absurd rfl hne
  | cons l ls ih =>
    rcases ls with _ | ⟨l2, ls⟩
    · exact splitNL_clean l (h l (by simp))
    · have hj : joinCRLF (l :: l2 :: ls) = l ++ '\r' :: '\n' :: joinCRLF (l2 :: ls) := by
        simp [joinCRLF]
      rw [hj, splitNL_append l _ (h l (by simp)),
        ih (fun x hx => h x (by simp [hx])) (by simp)]

theorem splitOnChar_sep (sep : Char) (rest : List Char) :
    splitOnChar sep (sep :: rest) = [] :: splitOnChar sep rest := by
  simp [splitOnChar]

theorem splitOnChar_char (sep c : Char) (rest : List Char) (h : c ≠ sep) :
    splitOnChar sep (c :: rest) = consHead c (splitOnChar sep rest) := by
  simp [splitOnChar, h]

theorem splitOnChar_clean (sep : Char) (l : List Char) (h : sep ∉ l) :
    splitOnChar sep l = [l] := by
  induction l with
  | nil => rfl
  | cons c l ih =>
    rw [splitOnChar_char sep c l (fun e => h (by simp [e])), ih (fun e => h (by simp [e]))]
    rfl

theorem splitOnChar_append (sep : Char) (f rest : List Char) (h : sep ∉ f) :
    splitOnChar sep (f ++ sep :: rest) = f :: splitOnChar sep rest := by
  induction f with
  | nil => simpa using splitOnChar_sep sep rest
  | cons c l ih =>
    rw [List.cons_append, splitOnChar_char sep c _ (fun e => h (by simp [e])),
      ih (fun e => h (by simp [e]))]
    rfl

theorem mem_dropWhile_of_not (p : Char → Bool) (l : List Char) (c : Char)
    (hc : c ∈ l) (h : p c = false) : c ∈ l.dropWhile p := by
  induction l with
  | nil => simp at hc
  | cons a l ih =>
    rcases List.mem_cons.mp hc with rfl | hmem
    · cases hp : p c
      · simp [List.dropWhile, hp]
      · rw [hp] at h; cases h
    · cases hp : p a
      · simp [List.dropWhile, hp, hmem]
      · simpa [List.dropWhile, hp] using ih hmem

theorem jsTrim_ne_nil (l : List Char) (c : Char) (hc : c ∈ l)
    (h : isSpaceChar c = false) : jsTrim l ≠ [] := by
  have h1 := mem_dropWhile_of_not isSpaceChar l c hc h
  have h2 : c ∈ (l.dropWhile isSpaceChar).reverse := List.mem_reverse.mpr h1
  have h3 := mem_dropWhile_of_not isSpaceChar _ c h2 h
  exact List.ne_nil_of_mem (List.mem_reverse.mpr h3)

/-! ### Character facts for exported lines -/

theorem digitChar_facts (x : Nat) :
    digitChar (x % 10) ≠ '\t' ∧ digitChar (x % 10) ≠ '\n' ∧ digitChar (x % 10) ≠ '\r' ∧
    isSpaceChar (digitChar (x % 10)) = false := by
  have h : x % 10 ≤ 9 := by omega
  interval_cases hx : x % 10 <;> exact ⟨by decide, by decide, by decide, by decide⟩

theorem fmtDateTime_clean (t : Nat) :
    ∀ c ∈ fmtDateTime t, c ≠ '\t' ∧ c ≠ '\n' ∧ c ≠ '\r' := by
  intro c hc
  rw [fmtDateTime, fmtDate, fmtHM] at hc
  simp only [pad4, pad2, List.cons_append, List.nil_append, List.mem_cons,
    List.not_mem_nil, or_false] at hc
  rcases hc with h|h|h|h|h|h|h|h|h|h|h|h|h|h|h|h|h|h|h <;> subst h <;>
    first
    | exact ⟨(digitChar_facts _).1, (digitChar_facts _).2.1, (digitChar_facts _).2.2.1⟩
    | exact ⟨by decide, by decide, by decide⟩

theorem fmtDateTime_ne_nil (t : Nat) : fmtDateTime t ≠ [] := by
  simp [fmtDateTime, fmtDate, pad4]

theorem cleanStrB_spec (l : List Char) (h : cleanStrB l = true) :
    ∀ c ∈ l, c ≠ '\t' ∧ c ≠ '\n' ∧ c ≠ '\r' := by
  intro c hc
  have := List.all_eq_true.mp h c hc
  simp only [bne_iff_ne, ne_eq, Bool.and_eq_true, decide_eq_true_eq] at this
  exact ⟨this.1.1, this.1.2, this.2⟩

theorem fmtOpt_clean (o : Option Nat) :
    ∀ c ∈ fmtOpt o, c ≠ '\t' ∧ c ≠ '\n' ∧ c ≠ '\r' := by
  cases o with
  | none => simp [fmtOpt]
  | some t => exact fun c hc => fmtDateTime_clean t c hc

theorem fmtOpt_no_tab (o : Option Nat) : '\t' ∉ fmtOpt o :=
  fun h => (fmtOpt_clean o '\t' h).1 rfl

theorem exportLine_clean (r : Row) (hn : cleanStrB r.name = true) (hi : cleanStrB r.ip = true) :
    ∀ c ∈ exportLine r, c ≠ '\n' ∧ c ≠ '\r' := by
  intro c hc
  rw [exportLine] at hc
  simp only [List.mem_append, List.mem_cons] at hc
  have hcases : c ∈ r.name ∨ c ∈ r.ip ∨ c ∈ fmtOpt r.start ∨ c ∈ fmtOpt r.stop ∨ c = '\t' := by
    tauto
  rcases hcases with h | h | h | h | h
  · exact ⟨(cleanStrB_spec _ hn c h).2.1, (cleanStrB_spec _ hn c h).2.2⟩
  · exact ⟨(cleanStrB_spec _ hi c h).2.1, (cleanStrB_spec _ hi c h).2.2⟩
  · exact ⟨(fmtOpt_clean _ c h).2.1, (fmtOpt_clean _ c h).2.2⟩
  · exact ⟨(fmtOpt_clean _ c h).2.1, (fmtOpt_clean _ c h).2.2⟩
  · subst h; exact ⟨by decide, by decide⟩

theorem jsTrim_exportLine_ne (r : Row) (a : Nat) (ha : r.start = some a) :
    jsTrim (exportLine r) ≠ [] := by
  apply jsTrim_ne_nil _ (digitChar ((civilFromDays (a / msPerDay)).1 / 1000 % 10))
  · rw [exportLine, ha]
    simp [fmtOpt, fmtDateTime, fmtDate, pad4, List.mem_append]
  · exact (digitChar_facts _).2.2.2

theorem exportLine_split (r : Row) (hn : cleanStrB r.name = true) (hi : cleanStrB r.ip = true) :
    splitOnChar '\t' (exportLine r) = [r.name, r.ip, fmtOpt r.start, fmtOpt r.stop] := by
  have hn' : '\t' ∉ r.name := fun h => (cleanStrB_spec _ hn _ h).1 rfl
  have hi' : '\t' ∉ r.ip := fun h => (cleanStrB_spec _ hi _ h).1 rfl
  rw [exportLine, splitOnChar_append _ _ _ hn', splitOnChar_append _ _ _ hi',
    splitOnChar_append _ _ _ (fmtOpt_no_tab _), splitOnChar_clean _ _ (fmtOpt_no_tab _)]

theorem parseField_fmt (a : Nat) (h1 : a % 1000 = 0) (h2 : a ≤ maxMs) :
    parseField (fmtDateTime a) = some a := by
  have hne : (fmtDateTime a).isEmpty = false := by
    rcases h : fmtDateTime a with _ | ⟨c, cs⟩
    · exact absurd h (fmtDateTime_ne_nil a)
    · rfl
  rw [parseField, hne]
  simp only [Bool.false_eq_true, if_false]
  rw [parseISO_fmtDateTime a h2]
  congr 1
  omega

theorem lineToRow_exportLine (r : Row) (h : goodRowB r = true) :
    (lineToRow (exportLine r)).name = r.name ∧ (lineToRow (exportLine r)).ip = r.ip ∧
    (lineToRow (exportLine r)).start = r.start ∧ (lineToRow (exportLine r)).stop = r.stop := by
  simp only [goodRowB, Bool.and_eq_true] at h
  obtain ⟨⟨⟨hn, hi⟩, hs⟩, hp⟩ := h
  rcases hstart : r.start with _ | a
  · rw [hstart] at hs; simp [tsOkB] at hs
  rcases hstop : r.stop with _ | b
  · rw [hstop] at hp; simp [tsOkB] at hp
  rw [hstart] at hs
  rw [hstop] at hp
  simp only [tsOkB, Bool.and_eq_true, decide_eq_true_eq] at hs hp
  rw [lineToRow, exportLine_split r hn hi]
  simp only [List.getD_cons_zero, List.getD_cons_succ]
  refine ⟨trivial, trivial, ?_, ?_⟩
  · rw [hstart]
    simp only [fmtOpt]
    rw [parseField_fmt a hs.1 hs.2]
  · rw [hstop]
    simp only [fmtOpt]
    rw [parseField_fmt b hp.1 hp.2]

theorem export_import_id (rows : List Row) (h : ∀ r ∈ rows, goodRowB r = true) :
    (importFromText (exportToText rows)).map (fun r => (r.name, r.ip, r.start, r.stop)) =
      rows.map (fun r => (r.name, r.ip, r.start, r.stop)) := by
  rcases rows with _ | ⟨r0, rs⟩
  · rfl
  · have hclean : ∀ l ∈ (r0 :: rs).map exportLine, ∀ c ∈ l, c ≠ '\n' ∧ c ≠ '\r' := by
      intro l hl
      obtain ⟨r, hr, rfl⟩ := List.mem_map.mp hl
      have hg := h r hr
      simp only [goodRowB, Bool.and_eq_true] at hg
      exact exportLine_clean r hg.1.1.1 hg.1.1.2
    rw [importFromText, exportToText, splitNL_join _ hclean (by simp)]
    have hkeep : ∀ l ∈ (r0 :: rs).map exportLine, (!(jsTrim l).isEmpty) = true := by
      intro l hl
      obtain ⟨r, hr, rfl⟩ := List.mem_map.mp hl
      have hg := h r hr
      simp only [goodRowB, Bool.and_eq_true] at hg
      rcases hs : r.start with _ | a
      · have := hg.1.2
        rw [hs] at this
        simp [tsOkB] at this
      · have h2 := jsTrim_exportLine_ne r a hs
        rcases hj : jsTrim (exportLine r) with _ | ⟨c, cs⟩
        · exact absurd hj h2
        · rfl
    rw [List.filter_eq_self.mpr hkeep]
    rw [List.map_map, List.map_map]
    apply List.map_congr_left
    intro r hr
    have hfields := lineToRow_exportLine r (h r hr)
    simp only [Function.comp]
    rw [hfields.1, hfields.2.1, hfields.2.2.1, hfields.2.2.2]

/-! ## Properties of the segment loop -/

theorem segLoop_spec (e : Nat) : ∀ (fuel cs : Nat), cs ≤ e →
    fuel = e / msPerDay - cs / msPerDay →
    segLoop e fuel cs ≠ [] ∧
    (segLoop e fuel cs).head?.map Prod.fst = some cs ∧
    (segLoop e fuel cs).getLast?.map Prod.snd = some e ∧
    List.Chain' (fun a b => a.2 + 1 = b.1 ∧ startOfDay b.1 = b.1) (segLoop e fuel cs) ∧
    ∀ p ∈ segLoop e fuel cs, p.1 ≤ p.2 := by
  intro fuel
  induction fuel with
  | zero =>
    intro cs hlt _
    refine ⟨by simp [segLoop], by simp [segLoop], by simp [segLoop], by simp [segLoop], ?_⟩
    intro p hp
    simp only [segLoop, List.mem_singleton] at hp
    subst hp
    omega
  | succ fuel ih =>
    intro cs hlt hfuel
    rw [segLoop]
    by_cases hcond : endOfDay cs < e
    · rw [if_pos hcond]
      have hnext : startOfDay (addDays (endOfDay cs) 1) = startOfDay cs + msPerDay := by
        simp only [startOfDay, endOfDay, addDays, msPerDay] at hcond ⊢
        omega
      have hlt' : startOfDay (addDays (endOfDay cs) 1) ≤ e := by
        rw [hnext]
        simp only [startOfDay, endOfDay, msPerDay] at hcond ⊢
        omega
      have hfuel' : fuel = e / msPerDay - startOfDay (addDays (endOfDay cs) 1) / msPerDay := by
        rw [hnext]
        simp only [startOfDay, endOfDay, msPerDay] at hcond hfuel ⊢
        omega
      obtain ⟨hne, hhead, hlast, hchain, hmem⟩ := ih _ hlt' hfuel'
      rcases htail : segLoop e fuel (startOfDay (addDays (endOfDay cs) 1)) with _ | ⟨q, qs⟩
      · exact absurd htail hne
      · rw [htail] at hhead hlast hchain hmem
        have hq1 : q.1 = startOfDay (addDays (endOfDay cs) 1) := by
          simpa using hhead
        refine ⟨by simp, by simp, ?_, ?_, ?_⟩
        · rw [List.getLast?_cons_cons]
          exact hlast
        · rw [List.chain'_cons']
          refine ⟨?_, hchain⟩
          intro y hy
          simp only [List.head?_cons, Option.mem_def, Option.some.injEq] at hy
          subst hy
          refine ⟨?_, ?_⟩
          · rw [hq1, hnext]
            simp only [endOfDay, startOfDay, msPerDay]
            try omega
          · rw [hq1, hnext]
            simp only [startOfDay, msPerDay]
            try omega
        · intro p hp
          rcases List.mem_cons.mp hp with rfl | hp'
          · simp only [endOfDay, startOfDay, msPerDay]
            omega
          · exact hmem p hp'
    · rw [if_neg hcond]
      refine ⟨by simp, by simp, by simp, by simp, ?_⟩
      intro p hp
      simp only [List.mem_singleton] at hp
      subst hp
      omega

/-! ## Claim theorems -/

/-- Claim C4 (amended): for set `start < end` the loop's segments are nonempty,
the first begins exactly at `start`, the last ends exactly at `end`, each
segment's end is exactly one millisecond before the next segment's start
(date-fns `endOfDay` is 23:59:59.999, so consecutive segments abut at
millisecond granularity rather than sharing an endpoint), every interior
segment's start lies at the start of a calendar day, and no segment is
reversed. -/
theorem claim4_daySegments_partition (s e : Nat) (h : s < e) :
    daySegments s e ≠ [] ∧
    (daySegments s e).head?.map Prod.fst = some s ∧
    (daySegments s e).getLast?.map Prod.snd = some e ∧
    List.Chain' (fun a b => a.2 + 1 = b.1 ∧ startOfDay b.1 = b.1) (daySegments s e) ∧
    ∀ p ∈ daySegments s e, p.1 ≤ p.2 :=
  segLoop_spec e _ s (le_of_lt h) rfl

/-- Claim C4, witness at start = 2024-01-01 10:00, end = 2024-01-02 14:00. -/
theorem claim4_witness :
    daySegments 1704103200000 1704204000000 ≠ [] ∧
    (daySegments 1704103200000 1704204000000).head?.map Prod.fst = some 1704103200000 ∧
    (daySegments 1704103200000 1704204000000).getLast?.map Prod.snd = some 1704204000000 ∧
    List.Chain' (fun a b => a.2 + 1 = b.1 ∧ startOfDay b.1 = b.1)
      (daySegments 1704103200000 1704204000000) ∧
    ∀ p ∈ daySegments 1704103200000 1704204000000, p.1 ≤ p.2 :=
  claim4_daySegments_partition 1704103200000 1704204000000 (by decide)

/-- Claim C4, counterexample to the claim as stated: at start = 2024-01-01
10:00, end = 2024-01-02 14:00 the first segment ends at 23:59:59.999 while the
second starts at the following midnight, so a segment's end does not equal the
next segment's start. -/
theorem claim4_counterexample :
    ((daySegments 1704103200000 1704204000000).get? 0).map Prod.snd ≠
      ((daySegments 1704103200000 1704204000000).get? 1).map Prod.fst := by
  decide

/-- Claim C3: with both timestamps set and `start >= end`, `renderBarSegments`
returns the single full-width invalid-range marker (and no day segments);
with `start` or `end` unset it renders nothing. -/
theorem claim3_invalid_and_unset (s e : Nat) (el la oe os : Option Nat) (h : e ≤ s) :
    renderBarSegments (some s) (some e) el la = RenderResult.invalidMarker ∧
    renderBarSegments none oe el la = RenderResult.nullR ∧
    renderBarSegments os none el la = RenderResult.nullR := by
  refine ⟨?_, rfl, ?_⟩
  · simp [renderBarSegments, h]
  · cases os <;> rfl

/-- Claim C3, witness at start = end = 2024-01-01 10:00. -/
theorem claim3_witness :
    renderBarSegments (some 1704103200000) (some 1704103200000) none none =
      RenderResult.invalidMarker ∧
    renderBarSegments none none none none = RenderResult.nullR ∧
    renderBarSegments none none none none = RenderResult.nullR :=
  claim3_invalid_and_unset 1704103200000 1704103200000 none none none none (by decide)

/-- Claim C1: for start = 2024-01-01 10:00 and end = 2024-01-03 14:00 (and any
derived bounds), the layout produces exactly 3 segments; the first starts at
`start` and carries the `2024-01-01` / `10:00` date-time label, the middle
segment spans the whole of 2024-01-02 (midnight to 23:59:59.999), the last
ends at `end` and carries the `2024-01-03` / `14:00` label, and no other
label is shown. -/
theorem claim1_threeSegment_layout (el la : Option Nat) :
    renderBarSegments (some 1704103200000) (some 1704290400000) el la =
      RenderResult.segs (renderedSegs 1704103200000 1704290400000 el la) ∧
    (renderedSegs 1704103200000 1704290400000 el la).length = 3 ∧
    (renderedSegs 1704103200000 1704290400000 el la).map
        (fun g => (g.segStart, g.segEnd, g.startLabel, g.endLabel)) =
      [(1704103200000, 1704153599999, some ("2024-01-01".toList, "10:00".toList), none),
       (1704153600000, 1704239999999, none, none),
       (1704240000000, 1704290400000, none, some ("2024-01-03".toList, "14:00".toList))] := by
  have hds : daySegments 1704103200000 1704290400000 =
      [(1704103200000, 1704153599999), (1704153600000, 1704239999999),
       (1704240000000, 1704290400000)] := by decide
  refine ⟨?_, ?_, ?_⟩
  · simp [renderBarSegments]
  · rw [renderedSegs, hds]
    rfl
  · rw [renderedSegs, hds]
    simp only [List.map_cons, List.map_nil]
    dsimp only [renderSeg]
    rfl

/-- Claim C5: every segment rendered for a record with set `start < end`,
whose start is at or after a set `earliest` bound, is colored with
`barColors[d % 4]` where `d` is the number of whole calendar days from the
start of `earliest`'s calendar day to the calendar day containing the
segment's start. -/
theorem claim5_segment_color (s e es : Nat) (la : Option Nat) (g : RSeg) (_hse : s < e)
    (hg : g ∈ renderedSegs s e (some es) la) (hle : es ≤ g.segStart) :
    g.color = barColors.get? ((g.segStart / msPerDay - es / msPerDay) % 4) := by
  obtain ⟨p, hp, rfl⟩ := List.mem_map.mp hg
  have hstart : (renderSeg s e (some es) la p).segStart = p.1 := rfl
  rw [hstart] at hle ⊢
  show segColor (some es) p.1 = _
  rw [segColor]
  have hsd : startOfDay es ≤ p.1 := by
    have : startOfDay es ≤ es := by simp only [startOfDay, msPerDay]; omega
    omega
  have hcast : ((p.1 : Int) - ((startOfDay es : Nat) : Int)) =
      (((p.1 - startOfDay es : Nat)) : Int) := by omega
  rw [hcast]
  have hfd : Int.fdiv (((p.1 - startOfDay es : Nat) : Int)) ((msPerDay : Nat) : Int) =
      (((p.1 - startOfDay es) / msPerDay : Nat) : Int) := by
    rw [Int.fdiv_eq_ediv _ (by positivity)]
    rfl
  rw [hfd]
  have htm : Int.tmod ((((p.1 - startOfDay es) / msPerDay : Nat)) : Int) 4 =
      ((((p.1 - startOfDay es) / msPerDay) % 4 : Nat) : Int) := rfl
  rw [htm]
  rw [colorAt, if_pos (Int.natCast_nonneg _)]
  rw [Int.toNat_natCast]
  have harg : (p.1 - startOfDay es) / msPerDay = p.1 / msPerDay - es / msPerDay := by
    simp only [startOfDay, msPerDay] at *
    omega
  rw [harg]

/-- Claim C5, witness: the single segment of a record spanning
1970-01-01 10:00 to 14:00 with `earliest` at the epoch is colored with
`barColors[0 % 4]`. -/
theorem claim5_witness :
    ((renderedSegs 36000000 50400000 (some 0) (some 50400000)).headI).color =
      barColors.get?
        ((((renderedSegs 36000000 50400000 (some 0) (some 50400000)).headI).segStart /
          msPerDay - 0 / msPerDay) % 4) := by
  have hsegs : daySegments 36000000 50400000 = [(36000000, 50400000)] := by decide
  have hmem : ((renderedSegs 36000000 50400000 (some 0) (some 50400000)).headI) ∈
      renderedSegs 36000000 50400000 (some 0) (some 50400000) := by
    rw [renderedSegs, hsegs]
    simp
  exact claim5_segment_color 36000000 50400000 0 (some 50400000) _ (by decide) hmem
    (Nat.zero_le _)

/-- Claim C6 (amended): when `earliest`, `latest`, `start` or `end` is unset
the computed width is 0, and when `earliest` or `start` is unset the computed
position is the bare 5px offset; but when `earliest` and `latest` are both
set and equal, the width and the position percentage are division-by-zero
values (Infinity or NaN) — the functions do not collapse to offset/zero
geometry in the equal-bounds case. -/
theorem claim6_geometry_amended (el la s e : Option Nat) :
    ((el = none ∨ la = none ∨ s = none ∨ e = none) →
      calculateWidth el la s e = JSNum.fin 0) ∧
    ((el = none ∨ s = none) → calculateLeftPosition el la s = LeftPos.px offset) ∧
    (∀ v sv ev : Nat, el = some v → la = some v → s = some sv → e = some ev →
      (calculateWidth el la s e).isFinite = false ∧
      ∃ p : JSNum, calculateLeftPosition el la s = LeftPos.calc p offset ∧
        p.isFinite = false) := by
  refine ⟨?_, ?_, ?_⟩
  · intro h
    rcases el with _ | el <;> rcases la with _ | la <;> rcases s with _ | s <;>
      rcases e with _ | e <;> simp_all [calculateWidth]
  · intro h
    rcases el with _ | el <;> rcases s with _ | s <;> simp_all [calculateLeftPosition]
  · intro v sv ev he hl hs hE
    subst he hl hs hE
    constructor
    · simp only [calculateWidth]
      rw [show ((v : ℚ) - (v : ℚ)) = 0 from by ring]
      rw [jsDiv, if_pos rfl]
      split_ifs <;> rfl
    · refine ⟨jsMul100 (jsDiv ((sv : ℚ) - v) 0), ?_, ?_⟩
      · simp only [calculateLeftPosition]
        rw [sub_self]
      · rw [jsDiv, if_pos rfl]
        split_ifs <;> rfl

/-- Claim C6, counterexample to the claim as stated: with `earliest = latest`
(both set) the width is Infinity, not 0, and the position is a
division-by-zero `calc` expression, not the bare 5px offset. -/
theorem claim6_counterexample :
    ¬ (calculateWidth (some 0) (some 0) (some 0) (some 100) = JSNum.fin 0 ∧
       calculateLeftPosition (some 0) (some 0) (some 0) = LeftPos.px offset) := by
  intro h
  have h1 := h.1
  simp only [calculateWidth] at h1
  rw [show ((0 : Nat) : ℚ) - ((0 : Nat) : ℚ) = 0 from by norm_num] at h1
  rw [jsDiv, if_pos rfl] at h1
  rw [if_neg (by norm_num), if_pos (by norm_num)] at h1
  exact JSNum.noConfusion (show JSNum.posInf = JSNum.fin 0 from h1)

/-- Claim C6, witness: unset bounds collapse width to 0 and position to the
offset; equal set bounds give non-finite width. -/
theorem claim6_witness :
    calculateWidth none (some 3) (some 1) (some 2) = JSNum.fin 0 ∧
    calculateLeftPosition none none none = LeftPos.px offset ∧
    (calculateWidth (some 7) (some 7) (some 7) (some 107)).isFinite = false := by
  obtain ⟨w1, -, -⟩ := claim6_geometry_amended none (some 3) (some 1) (some 2)
  obtain ⟨-, p2, -⟩ := claim6_geometry_amended none none none none
  obtain ⟨-, -, w3⟩ := claim6_geometry_amended (some 7) (some 7) (some 7) (some 107)
  exact ⟨w1 (Or.inl rfl), p2 (Or.inl rfl), (w3 7 7 107 rfl rfl rfl rfl).1⟩

theorem insertIdx_eraseIdx_self {α : Type} :
    ∀ (l : List α) (i : Nat) (h : i < l.length), (l.eraseIdx i).insertIdx i l[i] = l
  | _ :: _, 0, _ => rfl
  | a :: t, i + 1, h => by
    simp only [List.eraseIdx_cons_succ, List.insertIdx_succ_cons, List.getElem_cons_succ]
    rw [insertIdx_eraseIdx_self t i (by simpa using h)]
  | [], i, h => by simp at h

/-- Claim C9: for any record sequence and distinct in-bounds indices `i`, `j`,
`reorder(i, j)` followed by `reorder(j, i)` restores the original order. -/
theorem claim9_reorder_roundTrip {α : Type} (l : List α) (i j : Nat) (hi : i < l.length)
    (hj : j < l.length) (_hij : i ≠ j) :
    handleDragEnd (handleDragEnd l i j) j i = l := by
  have hget : l.get? i = some l[i] := by
    rw [List.get?_eq_getElem?, List.getElem?_eq_getElem hi]
  have h1 : handleDragEnd l i j = (l.eraseIdx i).insertIdx j l[i] := by
    rw [handleDragEnd, hget]
  rw [h1]
  have hlen1 : (l.eraseIdx i).length = l.length - 1 := by
    rw [List.length_eraseIdx]
    simp [hi]
  have hj' : j ≤ (l.eraseIdx i).length := by omega
  have hlt : j < ((l.eraseIdx i).insertIdx j l[i]).length := by
    rw [List.length_insertIdx _ _ hj']
    omega
  have hget2 : ((l.eraseIdx i).insertIdx j l[i]).get? j = some l[i] := by
    rw [List.get?_eq_getElem?, List.getElem?_eq_getElem hlt]
    exact congrArg some (List.getElem_insertIdx_self (l.eraseIdx i) (l[i]) j hj')
  rw [handleDragEnd, hget2]
  rw [List.eraseIdx_insertIdx]
  exact insertIdx_eraseIdx_self l i hi

/-- Claim C9, witness on a three-element sequence with i = 0, j = 2. -/
theorem claim9_witness :
    handleDragEnd (handleDragEnd [10, 20, 30] 0 2) 2 0 = [10, 20, 30] :=
  claim9_reorder_roundTrip [10, 20, 30] 0 2 (by decide) (by decide) (by decide)

/-- Claim C10: `deleteRow` is total over all integer indices: an index that
refers to no existing record (negative, or at least the sequence length)
leaves the sequence unchanged, because `filter((_, i) => i !== index)` keeps
every element. -/
theorem claim10_deleteRow_total {α : Type} (l : List α) (idx : Int)
    (h : idx < 0 ∨ (l.length : Int) ≤ idx) : handleDeleteRow l idx = l := by
  rw [handleDeleteRow]
  have hfilter : l.enum.filter (fun p => ((p.1 : Int) != idx)) = l.enum := by
    rw [List.filter_eq_self]
    intro p hp
    have hlt := List.fst_lt_of_mem_enum hp
    simp only [bne_iff_ne, ne_eq]
    omega
  rw [hfilter, List.enum_map_snd]

/-- Claim C10, witness: deleting at −1 and at 5 leaves a one-row store
unchanged. -/
theorem claim10_witness :
    handleDeleteRow [blankRow] (-1) = [blankRow] ∧
    handleDeleteRow [blankRow] 5 = [blankRow] :=
  ⟨claim10_deleteRow_total [blankRow] (-1) (Or.inl (by decide)),
   claim10_deleteRow_total [blankRow] 5 (Or.inr (by decide))⟩

/-- Claim C8 (amended): an in-range `handleChange` on a field other than the
address replaces only that field of the record at that index and leaves every
other record unchanged — except that it also unconditionally clears the
record's address error message (the `else` branch sets `errors.ip` to the
empty string on every non-address edit), rather than leaving the validation
state unchanged as claimed. -/
theorem claim8_handleChange_frame (rows : List Row) (i : Nat) (fv : FieldVal) (r : Row)
    (hr : rows.get? i = some r) (hip : isIpEdit fv = false) :
    (handleChange rows i fv).length = rows.length ∧
    (∀ j, j ≠ i → (handleChange rows i fv).get? j = rows.get? j) ∧
    (handleChange rows i fv).get? i =
      some { setField r fv with errors := ⟨[], r.errors.date⟩ } := by
  have hi : i < rows.length := by
    by_contra hge
    rw [List.get?_eq_getElem?, List.getElem?_eq_none (by omega)] at hr
    cases hr
  have hchange : handleChange rows i fv =
      rows.set i { setField r fv with errors := ⟨[], r.errors.date⟩ } := by
    cases fv with
    | ip v => simp [isIpEdit] at hip
    | name v =>
      rw [handleChange, hr]
      · rfl
      · exact fun v1 h => FieldVal.noConfusion h
    | start v =>
      rw [handleChange, hr]
      · rfl
      · exact fun v1 h => FieldVal.noConfusion h
    | stop v =>
      rw [handleChange, hr]
      · rfl
      · exact fun v1 h => FieldVal.noConfusion h
    | selected v =>
      rw [handleChange, hr]
      · rfl
      · exact fun v1 h => FieldVal.noConfusion h
  rw [hchange]
  refine ⟨List.length_set rows i _, fun j hj => ?_, ?_⟩
  · rw [List.get?_eq_getElem?, List.get?_eq_getElem?, List.getElem?_set_ne (Ne.symm hj)]
  · rw [List.get?_eq_getElem?, List.getElem?_set_self hi]

/-- Claim C8, counterexample to the claim as stated: editing the name of a
record whose address error message is set clears the message, so the
validation state is not left unchanged by a non-address edit. -/
theorem claim8_counterexample :
    (handleChange
        [⟨[], "1.2.3".toList, none, none, ⟨"Invalid IP address".toList, []⟩, false⟩]
        0 (FieldVal.name ('x' :: []))).map (fun row => row.errors.ip) ≠
      ["Invalid IP address".toList] := by
  decide

/-- Claim C8, witness: a name edit on a one-record store replaces the name,
keeps the length, and resets the address error message. -/
theorem claim8_witness :
    (handleChange
        [⟨[], "1.2.3".toList, none, none, ⟨"Invalid IP address".toList, []⟩, false⟩]
        0 (FieldVal.name ('x' :: []))).get? 0 =
      some { setField
          ⟨[], "1.2.3".toList, none, none, ⟨"Invalid IP address".toList, []⟩, false⟩
          (FieldVal.name ('x' :: [])) with
        errors := ⟨[], []⟩ } :=
  (claim8_handleChange_frame
    [⟨[], "1.2.3".toList, none, none, ⟨"Invalid IP address".toList, []⟩, false⟩]
    0 (FieldVal.name ('x' :: []))
    ⟨[], "1.2.3".toList, none, none, ⟨"Invalid IP address".toList, []⟩, false⟩
    rfl rfl).2.2

theorem lift_invalid_left (op : Nat → Nat → Nat) (x : JSDate) :
    JSDate.lift op JSDate.invalid x = JSDate.invalid := by
  cases x <;> rfl

theorem lift_invalid_right (op : Nat → Nat → Nat) (x : JSDate) :
    JSDate.lift op x JSDate.invalid = JSDate.invalid := by
  cases x <;> rfl

theorem foldl_lift_invalid (op : Nat → Nat → Nat) (ds : List JSDate) :
    ds.foldl (JSDate.lift op) JSDate.invalid = JSDate.invalid := by
  induction ds with
  | nil => rfl
  | cons a as ih =>
    rw [List.foldl_cons, lift_invalid_left]
    exact ih

theorem foldl_lift_of_mem (op : Nat → Nat → Nat) :
    ∀ (ds : List JSDate), JSDate.invalid ∈ ds →
      ∀ acc, ds.foldl (JSDate.lift op) acc = JSDate.invalid
  | [], h, _ => nomatch h
  | a :: as, h, acc => by
    rcases List.mem_cons.mp h with h1 | h2
    · rw [List.foldl_cons, ← h1, lift_invalid_right]
      exact foldl_lift_invalid op as
    · rw [List.foldl_cons]
      exact foldl_lift_of_mem op as h2 _

theorem foldl_lift_map_valid (op : Nat → Nat → Nat) (ms : List Nat) :
    ∀ m, (ms.map JSDate.valid).foldl (JSDate.lift op) (JSDate.valid m) =
      JSDate.valid (ms.foldl op m) := by
  induction ms with
  | nil => intro m; rfl
  | cons a as ih =>
    intro m
    rw [List.map_cons, List.foldl_cons, List.foldl_cons]
    exact ih (op m a)

theorem jsMinList_eq_invalid {l : List JSDate} (h : JSDate.invalid ∈ l) :
    jsMinList l = JSDate.invalid := by
  cases l with
  | nil => cases h
  | cons d ds =>
    show ds.foldl jsMin d = JSDate.invalid
    rcases List.mem_cons.mp h with h1 | h2
    · rw [← h1]
      exact foldl_lift_invalid min ds
    · exact foldl_lift_of_mem min ds h2 d

theorem jsMaxList_eq_invalid {l : List JSDate} (h : JSDate.invalid ∈ l) :
    jsMaxList l = JSDate.invalid := by
  cases l with
  | nil => cases h
  | cons d ds =>
    show ds.foldl jsMax d = JSDate.invalid
    rcases List.mem_cons.mp h with h1 | h2
    · rw [← h1]
      exact foldl_lift_invalid max ds
    · exact foldl_lift_of_mem max ds h2 d

theorem filterMap_ms_map_valid (ms : List Nat) :
    (ms.map JSDate.valid).filterMap JSDate.ms? = ms := by
  induction ms with
  | nil => rfl
  | cons a as ih => simpa [JSDate.ms?] using ih

theorem eq_map_of_no_invalid :
    ∀ {l : List JSDate}, JSDate.invalid ∉ l →
      l = (l.filterMap JSDate.ms?).map JSDate.valid
  | [], _ => rfl
  | JSDate.valid t :: ds, h => by
    have hds : JSDate.invalid ∉ ds := fun hm => h (List.mem_cons_of_mem _ hm)
    have hstep : (JSDate.valid t :: ds).filterMap JSDate.ms? =
        t :: ds.filterMap JSDate.ms? := by
      simp [JSDate.ms?]
    rw [hstep, List.map_cons]
    exact congrArg (List.cons (JSDate.valid t)) (eq_map_of_no_invalid hds)
  | JSDate.invalid :: _, h => absurd (List.mem_cons_self _ _) h

theorem jsMinList_no_invalid {l : List JSDate} (hne : l ≠ [])
    (hn : JSDate.invalid ∉ l) :
    (l.filterMap JSDate.ms?).min?.map JSDate.valid = some (jsMinList l) := by
  obtain ⟨L, hL⟩ : ∃ L : List Nat, l = L.map JSDate.valid :=
    ⟨l.filterMap JSDate.ms?, eq_map_of_no_invalid hn⟩
  subst hL
  rw [filterMap_ms_map_valid]
  cases L with
  | nil => exact absurd rfl hne
  | cons m ms =>
    show ((m :: ms).min?).map JSDate.valid =
      some ((ms.map JSDate.valid).foldl (JSDate.lift min) (JSDate.valid m))
    rw [foldl_lift_map_valid min ms m]
    rfl

theorem jsMaxList_no_invalid {l : List JSDate} (hne : l ≠ [])
    (hn : JSDate.invalid ∉ l) :
    (l.filterMap JSDate.ms?).max?.map JSDate.valid = some (jsMaxList l) := by
  obtain ⟨L, hL⟩ : ∃ L : List Nat, l = L.map JSDate.valid :=
    ⟨l.filterMap JSDate.ms?, eq_map_of_no_invalid hn⟩
  subst hL
  rw [filterMap_ms_map_valid]
  cases L with
  | nil => exact absurd rfl hne
  | cons m ms =>
    show ((m :: ms).max?).map JSDate.valid =
      some ((ms.map JSDate.valid).foldl (JSDate.lift max) (JSDate.valid m))
    rw [foldl_lift_map_valid max ms m]
    rfl

theorem recomputeBounds_rows (s : AppState) : (recomputeBounds s).rows = s.rows := by
  rw [recomputeBounds]
  split
  · rfl
  · split <;> rfl

theorem recomputeBounds_spec (s : AppState)
    (h : definedDates (recomputeBounds s).rows ≠ []) :
    (recomputeBounds s).earliest =
      some (jsMinList (definedDates (recomputeBounds s).rows)) ∧
    (recomputeBounds s).latest =
      some (jsMaxList (definedDates (recomputeBounds s).rows)) := by
  rw [recomputeBounds_rows] at h ⊢
  have hd : ¬ ((definedDates s.rows).isEmpty = true) := by
    intro hemp
    rw [List.isEmpty_iff] at hemp
    exact h hemp
  have hr : ¬ (s.rows.isEmpty = true) := by
    intro hemp
    rw [List.isEmpty_iff] at hemp
    apply h
    rw [hemp]
    rfl
  rw [recomputeBounds, if_neg hr, if_neg hd]
  exact ⟨rfl, rfl⟩

theorem bounds_invariant_aux (s : AppState) (hs : Reachable s)
    (h : definedDates s.rows ≠ []) :
    s.earliest = some (jsMinList (definedDates s.rows)) ∧
    s.latest = some (jsMaxList (definedDates s.rows)) := by
  revert h
  induction hs with
  | init => intro h; exact absurd rfl h
  | add _ _ => intro h; exact recomputeBounds_spec _ h
  | edit i fv _ _ => intro h; exact recomputeBounds_spec _ h
  | del i _ _ => intro h; exact recomputeBounds_spec _ h
  | delSel _ _ => intro h; exact recomputeBounds_spec _ h
  | copySel _ _ => intro h; exact recomputeBounds_spec _ h
  | reorder src dst _ _ => intro h; exact recomputeBounds_spec _ h
  | imp data _ _ => intro h; exact recomputeBounds_spec _ h

/-- Claim C7 (amended): in every state reachable by the row-store operations
(add, edit, delete, delete-selected, copy-selected, reorder, import), whenever
at least one record has a defined (non-null) timestamp: if every defined
timestamp is a valid instant, `earliest` and `latest` are their minimum and
maximum; and as soon as any defined timestamp is the Invalid Date (an
unparsable nonempty imported field), both bounds are the Invalid Date — its
NaN time value survives `filter(Boolean)` and poisons `Math.min`/`Math.max`.
When no defined timestamp remains, the effect keeps the previous bounds
rather than clearing them (see the counterexample). -/
theorem claim7_bounds_invariant (s : AppState) (hs : Reachable s)
    (h : definedDates s.rows ≠ []) :
    (JSDate.invalid ∈ definedDates s.rows →
      s.earliest = some JSDate.invalid ∧ s.latest = some JSDate.invalid) ∧
    (JSDate.invalid ∉ definedDates s.rows →
      s.earliest = ((definedDates s.rows).filterMap JSDate.ms?).min?.map JSDate.valid ∧
      s.latest = ((definedDates s.rows).filterMap JSDate.ms?).max?.map JSDate.valid) := by
  obtain ⟨he, hl⟩ := bounds_invariant_aux s hs h
  constructor
  · intro hmem
    exact ⟨he.trans (congrArg some (jsMinList_eq_invalid hmem)),
           hl.trans (congrArg some (jsMaxList_eq_invalid hmem))⟩
  · intro hnmem
    exact ⟨he.trans (jsMinList_no_invalid h hnmem).symm,
           hl.trans (jsMaxList_no_invalid h hnmem).symm⟩

/-- Claim C7, counterexample to the claim as stated: add a row, set its start
to the instant 5, then delete the row. The state is reachable, no record
remains, yet the bounds still hold the stale value 5 instead of being
absent. -/
theorem claim7_counterexample :
    Reachable (stepRows (fun rows => handleDeleteRow rows 0)
        (stepRows (fun rows => handleChangeJ rows 0 (JFieldVal.start (some (JSDate.valid 5))))
          (stepRows handleAddRowJ initState))) ∧
    (stepRows (fun rows => handleDeleteRow rows 0)
        (stepRows (fun rows => handleChangeJ rows 0 (JFieldVal.start (some (JSDate.valid 5))))
          (stepRows handleAddRowJ initState))).rows = [] ∧
    (stepRows (fun rows => handleDeleteRow rows 0)
        (stepRows (fun rows => handleChangeJ rows 0 (JFieldVal.start (some (JSDate.valid 5))))
          (stepRows handleAddRowJ initState))).earliest = some (JSDate.valid 5) := by
  refine ⟨Reachable.del 0 (Reachable.edit 0 (JFieldVal.start (some (JSDate.valid 5)))
    (Reachable.add Reachable.init)), ?_, ?_⟩ <;> decide

/-- Claim C7, witness: after adding a row and setting its start to the instant
5 the bounds are that minimum; and after importing the line
`a<TAB>b<TAB>garbage<TAB>2024-01-02 03:04:05` — whose unparsable `start` field
becomes the Invalid Date next to a valid `end` — `earliest` is the Invalid
Date, not the minimum over the valid instants. -/
theorem claim7_witness :
    (stepRows (fun rows => handleChangeJ rows 0 (JFieldVal.start (some (JSDate.valid 5))))
        (stepRows handleAddRowJ initState)).earliest = some (JSDate.valid 5) ∧
    (stepRows
        (fun _ => [("a".toList, "b".toList, some JSDate.invalid,
          some (JSDate.valid 1704164645000))].map importedRow)
        initState).earliest = some JSDate.invalid :=
  ⟨((claim7_bounds_invariant _
      (Reachable.edit 0 (JFieldVal.start (some (JSDate.valid 5)))
        (Reachable.add Reachable.init)) (by decide)).2 (by decide)).1.trans (by decide),
   ((claim7_bounds_invariant _
      (Reachable.imp [("a".toList, "b".toList, some JSDate.invalid,
          some (JSDate.valid 1704164645000))] Reachable.init) (by decide)).1
      (by decide)).1⟩

/-- Claim C2 (amended): exporting and re-importing reproduces every record's
name, address, start and end, in order, provided each record has both
timestamps set to whole-second values in the 4-digit-year range and its name
and address contain no tab, CR or LF characters. -/
theorem claim2_roundTrip (rows : List Row) (h : ∀ r ∈ rows, goodRowB r = true) :
    (importFromText (exportToText rows)).map (fun r => (r.name, r.ip, r.start, r.stop)) =
      rows.map (fun r => (r.name, r.ip, r.start, r.stop)) :=
  export_import_id rows h

/-- Claim C2, counterexample to the claim as stated: a set start timestamp
with a fractional second (0.5 s past the epoch) does not round-trip — the
export format `yyyy-MM-dd HH:mm:ss` drops milliseconds. -/
theorem claim2_counterexample :
    (importFromText (exportToText
        [⟨[], [], some 500, some 60000, ⟨[], []⟩, false⟩])).map (fun r => r.start) ≠
      [some 500] := by
  decide

/-- Claim C2, witness: a record named `ab` at 1.2.3.4 spanning 2024-01-01
10:00 to 2024-01-03 14:00 round-trips. -/
theorem claim2_witness :
    (importFromText (exportToText
        [⟨"ab".toList, "1.2.3.4".toList, some 1704103200000, some 1704290400000,
          ⟨[], []⟩, false⟩])).map (fun r => (r.name, r.ip, r.start, r.stop)) =
      [(⟨"ab".toList, "1.2.3.4".toList, some 1704103200000, some 1704290400000,
          ⟨[], []⟩, false⟩ : Row)].map (fun r => (r.name, r.ip, r.start, r.stop)) :=
  claim2_roundTrip _ (by decide)

end TSV
